import Mathlib

/-!
# Verification of the FastVLM PC inference pipeline (`scripts/pc_fastvlm_infer.py`)

Shallow embedding of the pure algorithmic core of the pipeline:

* the byte-to-unicode codec (`BpeTokenizerPy._build_bytes_to_unicode`),
* the greedy BPE merge (`BpeTokenizerPy._bpe`),
* special-token splitting (`BpeTokenizerPy.tokenize_to_ids`),
* segment encoding with unknown-token fallback (`BpeTokenizerPy._encode_segment`),
* detokenization (`BpeTokenizerPy.decode`),
* embedding fusion and the image-placeholder search (`main`),
* repetition penalty and nucleus truncation (`top_p_sample`),
* the autoregressive decode loop and end-of-sequence cutting (`main`).

Machine floats are modelled over `ℚ` (exact arithmetic); embedding vectors are
values of an arbitrary type; the neural engine calls (vision encoder, embedding
lookup, decoder) are opaque function parameters.
-/

namespace FastVLM

/-! ## Byte-unicode codec (`_build_bytes_to_unicode`, lines 109-118) -/

/-- The `bs`/`cs` association built by `_build_bytes_to_unicode`:
`bs = list(range(33,127)) + list(range(161,173)) + list(range(174,256))`, `cs = bs[:]`,
then every byte `b` of `range(256)` not in `bs` is appended to `bs` with codepoint
`256 + n` appended to `cs`, `n` counting the appended bytes.  The returned dict
`{b: chr(c) for b, c in zip(bs, cs)}` is the pair list `bs.zip cs`; codepoints are
kept as naturals (`chr` is injective on them). -/
def bytesToUnicodeTable : List (Nat × Nat) := Id.run do
  let mut bs : List Nat := (List.range' 33 94) ++ (List.range' 161 12) ++ (List.range' 174 82)
  let mut cs : List Nat := bs
  let mut n := 0
  for b in List.range 256 do
    if ! bs.contains b then
      bs := bs ++ [b]
      cs := cs ++ [256 + n]
      n := n + 1
  return bs.zip cs

/-- `self.byte_encoder[b]` (line 53): the codepoint assigned to byte `b`. -/
def byteEncoder (b : Nat) : Option Nat := bytesToUnicodeTable.lookup b

/-- `self.byte_decoder = {v: k for k, v in self.byte_encoder.items()}` (line 54). -/
def byteDecoder (c : Nat) : Option Nat :=
  (bytesToUnicodeTable.map (fun p => (p.2, p.1))).lookup c

/-! ## BPE merge (`_get_pairs` lines 120-127, `_bpe` lines 129-166) -/

/-- `_get_pairs(word)`: the set of adjacent symbol pairs, modelled as a
deduplicated list (Python builds a `set`). -/
def getPairs (word : List String) : List (String × String) :=
  (word.zip word.tail).dedup

/-- Lines 137-139 of `_bpe`: `bigram = min(pairs, key=lambda p: self.bpe_ranks.get(p, 10**9))`
followed by the `if bigram not in self.bpe_ranks: break` test.  `List.argmin`
returns the first minimising element, as Python `min` does. -/
def selectBigram (ranks : String × String → Option Nat) (pairs : List (String × String)) :
    Option (String × String) :=
  match pairs.argmin (fun p => (ranks p).getD (10 ^ 9)) with
  | none => none
  | some p => if (ranks p).isSome then some p else none

/-- The inner merge pass of `_bpe` (lines 141-162): scan the word left to right
and replace each non-overlapping occurrence of `(first, second)` by the
concatenation `first ++ second`.  (The Python loop skips runs of symbols
different from `first` in bulk via an inner search; element-wise scanning is the
same traversal.) -/
def mergePairs (first second : String) : List String → List String
  | [] => []
  | [w] => [w]
  | w :: w2 :: ws =>
    if w = first ∧ w2 = second then (first ++ second) :: mergePairs first second ws
    else w :: mergePairs first second (w2 :: ws)

/-- The `while True` loop of `_bpe` (lines 136-165): select the eligible bigram of
lowest rank, merge it, and stop when no bigram is eligible or one symbol remains.
Every merge shortens the word, so any `fuel ≥ word.length` is enough for the
loop to reach its stopping condition. -/
def bpeLoop (ranks : String × String → Option Nat) : Nat → List String → List String
  | 0, word => word
  | fuel + 1, word =>
    match selectBigram ranks (getPairs word) with
    | none => word
    | some (first, second) =>
      let word2 := mergePairs first second word
      if word2.length = 1 then word2 else bpeLoop ranks fuel word2

/-- `_bpe(token)` (lines 129-166): empty tokens yield `[]`; otherwise the token is
split into single-character symbols and the merge loop runs (a one-character
token has no pairs and is returned as is, matching the early `return [token]`). -/
def bpe (ranks : String × String → Option Nat) (token : String) : List String :=
  if token = "" then []
  else bpeLoop ranks token.length (token.toList.map Char.toString)

/-- The bigram selection as the specification words it: among the adjacent pairs
present in the rank table, the one of lowest rank (the first such pair on equal
ranks).  Stated only to be compared with `selectBigram`, which is the embedding
of the source. -/
def selectBigramSpec (ranks : String × String → Option Nat)
    (pairs : List (String × String)) : Option (String × String) :=
  (pairs.filter (fun p => (ranks p).isSome)).argmin (fun p => (ranks p).getD 0)

/-! ## Segment encoding (`_encode_segment`, lines 198-209) -/

/-- `self.vocab.get(tok, self.vocab.get('<unk>', 0))` (line 208): the id of `tok`,
falling back to the id of `<unk>` when `tok` is unmapped, falling back to `0`
when `<unk>` is itself unmapped. -/
def vocabLookup (vocab : List (String × Nat)) (tok : String) : Nat :=
  (vocab.lookup tok).getD ((vocab.lookup "<unk>").getD 0)

/-- UTF-8 encoding of one codepoint, as `piece.encode('utf-8')` produces per
character (line 205). -/
def utf8EncodeCodepoint (c : Nat) : List Nat :=
  if c < 0x80 then [c]
  else if c < 0x800 then [0xC0 + c / 64, 0x80 + c % 64]
  else if c < 0x10000 then [0xE0 + c / 4096, 0x80 + (c / 64) % 64, 0x80 + c % 64]
  else [0xF0 + c / 262144, 0x80 + (c / 4096) % 64, 0x80 + (c / 64) % 64, 0x80 + c % 64]

/-- `piece.encode('utf-8')` (line 205). -/
def utf8Encode (s : String) : List Nat :=
  (s.toList.map (fun c => utf8EncodeCodepoint c.toNat)).flatten

/-- Line 205: the join of `self.byte_encoder[b] for b in piece.encode('utf-8')`.
Every UTF-8 byte is below 256, where the byte encoder is total, so the `getD 0`
default is never taken. -/
def byteEncodePiece (piece : String) : String :=
  String.mk ((utf8Encode piece).map (fun b => Char.ofNat ((byteEncoder b).getD 0)))

/-- Lines 205-208 of `_encode_segment`, for one regex piece: byte-encode it, run
BPE, then map every merged symbol through the vocabulary with the `<unk>`/`0`
fallback. -/
def encodePiece (vocab : List (String × Nat)) (ranks : String × String → Option Nat)
    (piece : String) : List Nat :=
  (bpe ranks (byteEncodePiece piece)).map (vocabLookup vocab)

/-! ## Special-token splitting (`tokenize_to_ids`, lines 174-196) -/

/-- `text.find(tok, i)` (line 183): the least position `j ≥ i` at which `tok`
occurs in `text`, `none` when there is no occurrence (Python returns `-1`). -/
def strFind (text tok : List Char) (start : Nat) : Option Nat :=
  ((List.range (text.length + 1)).filter
    (fun j => decide (start ≤ j) && ((text.drop j).take tok.length == tok))).head?

/-- Lines 180-186 of `tokenize_to_ids`: scan every special marker for its next
occurrence at or after `i`, keeping the strictly smallest position; on equal
positions the marker listed first in the table wins (`idx < next_pos` is a
strict comparison). -/
def nextSpecial (specials : List (List Char × Nat)) (text : List Char) (i : Nat) :
    Option (Nat × List Char × Nat) :=
  specials.foldl
    (fun best s =>
      match strFind text s.1 i with
      | none => best
      | some idx =>
        match best with
        | none => some (idx, s)
        | some b => if idx < b.1 then some (idx, s) else best)
    none

/-- The marker selection as the (amended) specification words it: among the
markers that occur at or after `i`, the one with the smallest occurrence
position, the first-listed marker winning ties.  Stated only to be compared
with `nextSpecial`, the embedding of the source. -/
def nextSpecialSpec (specials : List (List Char × Nat)) (text : List Char) (i : Nat) :
    Option (Nat × List Char × Nat) :=
  ((specials.filterMap (fun s => (strFind text s.1 i).map (fun p => (p, s)))).argmin
    (fun c => c.1))

/-- The scan loop of `tokenize_to_ids` (lines 178-195), parametric in the
non-special segment encoder `enc` (`self._encode_segment`).  Each iteration
either finishes or advances `i` past one marker occurrence, so any
`fuel > text.length` covers every run with non-empty markers. -/
def tokenizeLoop (specials : List (List Char × Nat)) (enc : List Char → List Nat)
    (text : List Char) : Nat → Nat → List Nat
  | _, 0 => []
  | i, fuel + 1 =>
    if i < text.length then
      match nextSpecial specials text i with
      | none => enc (text.drop i)
      | some (pos, tok, tid) =>
        (if i < pos then enc ((text.drop i).take (pos - i)) else []) ++
          tid :: tokenizeLoop specials enc text (pos + tok.length) fuel
    else []

/-- `tokenize_to_ids(text)` (lines 174-196), parametric in the segment encoder. -/
def tokenizeToIds (specials : List (List Char × Nat)) (enc : List Char → List Nat)
    (text : List Char) : List Nat :=
  tokenizeLoop specials enc text 0 (text.length + 1)

/-! ## Detokenization (`decode`, lines 211-226) -/

/-- The bytes one id contributes in the loop of `decode` (lines 213-222): nothing
for an id of the special table (line 214), nothing for an id absent from
`id_to_token` (line 217), else the byte-decoder image of the token's characters,
characters without an entry being skipped (lines 219-222). -/
def idBytes (specialIds : List Nat) (idToToken : List (Nat × String)) (tid : Nat) : List Nat :=
  if specialIds.contains tid then []
  else
    match idToToken.lookup tid with
    | none => []
    | some tok => tok.toList.filterMap (fun ch => byteDecoder ch.toNat)

/-- `bytes_list` after the loop of lines 212-222 of `decode`. -/
def collectBytes (specialIds : List Nat) (idToToken : List (Nat × String))
    (ids : List Nat) : List Nat :=
  (ids.map (idBytes specialIds idToToken)).flatten

/-- Strict UTF-8 decoding, as `bytes(...).decode('utf-8')` (line 224): `none` on
any malformed input (truncated sequences, bad continuations, overlong forms,
surrogates, codepoints beyond `U+10FFFF`). -/
def utf8DecodeStrict : List Nat → Option (List Char)
  | [] => some []
  | b :: bs =>
    if b < 0x80 then (utf8DecodeStrict bs).map (fun cs => Char.ofNat b :: cs)
    else if 0xC2 ≤ b ∧ b ≤ 0xDF then
      match bs with
      | b2 :: bs2 =>
        if 0x80 ≤ b2 ∧ b2 ≤ 0xBF then
          (utf8DecodeStrict bs2).map (fun cs => Char.ofNat ((b - 0xC0) * 64 + (b2 - 0x80)) :: cs)
        else none
      | [] => none
    else if 0xE0 ≤ b ∧ b ≤ 0xEF then
      match bs with
      | b2 :: b3 :: bs3 =>
        if (0x80 ≤ b2 ∧ b2 ≤ 0xBF) ∧ (0x80 ≤ b3 ∧ b3 ≤ 0xBF) ∧
            (b = 0xE0 → 0xA0 ≤ b2) ∧ (b = 0xED → b2 ≤ 0x9F) then
          (utf8DecodeStrict bs3).map
            (fun cs => Char.ofNat ((b - 0xE0) * 4096 + (b2 - 0x80) * 64 + (b3 - 0x80)) :: cs)
        else none
      | _ => none
    else if 0xF0 ≤ b ∧ b ≤ 0xF4 then
      match bs with
      | b2 :: b3 :: b4 :: bs4 =>
        if (0x80 ≤ b2 ∧ b2 ≤ 0xBF) ∧ (0x80 ≤ b3 ∧ b3 ≤ 0xBF) ∧ (0x80 ≤ b4 ∧ b4 ≤ 0xBF) ∧
            (b = 0xF0 → 0x90 ≤ b2) ∧ (b = 0xF4 → b2 ≤ 0x8F) then
          (utf8DecodeStrict bs4).map
            (fun cs => Char.ofNat
              ((b - 0xF0) * 262144 + (b2 - 0x80) * 4096 + (b3 - 0x80) * 64 + (b4 - 0x80)) :: cs)
        else none
      | _ => none
    else none

/-- Lossy UTF-8 decoding, as `bytes(...).decode(errors='ignore')` (line 226):
structurally the strict decoder, but a byte that cannot start a valid sequence
here is skipped instead of failing the whole decode.  The loop consumes at least
one byte per step, so running it with `fuel = l.length` processes all of `l`. -/
def utf8DecodeIgnoreF : Nat → List Nat → List Char
  | 0, _ => []
  | _, [] => []
  | fuel + 1, b :: bs =>
    if b < 0x80 then Char.ofNat b :: utf8DecodeIgnoreF fuel bs
    else if 0xC2 ≤ b ∧ b ≤ 0xDF then
      match bs with
      | b2 :: bs2 =>
        if 0x80 ≤ b2 ∧ b2 ≤ 0xBF then
          Char.ofNat ((b - 0xC0) * 64 + (b2 - 0x80)) :: utf8DecodeIgnoreF fuel bs2
        else utf8DecodeIgnoreF fuel (b2 :: bs2)
      | [] => []
    else if 0xE0 ≤ b ∧ b ≤ 0xEF then
      match bs with
      | b2 :: b3 :: bs3 =>
        if (0x80 ≤ b2 ∧ b2 ≤ 0xBF) ∧ (0x80 ≤ b3 ∧ b3 ≤ 0xBF) ∧
            (b = 0xE0 → 0xA0 ≤ b2) ∧ (b = 0xED → b2 ≤ 0x9F) then
          Char.ofNat ((b - 0xE0) * 4096 + (b2 - 0x80) * 64 + (b3 - 0x80)) ::
            utf8DecodeIgnoreF fuel bs3
        else utf8DecodeIgnoreF fuel (b2 :: b3 :: bs3)
      | bsr => utf8DecodeIgnoreF fuel bsr
    else if 0xF0 ≤ b ∧ b ≤ 0xF4 then
      match bs with
      | b2 :: b3 :: b4 :: bs4 =>
        if (0x80 ≤ b2 ∧ b2 ≤ 0xBF) ∧ (0x80 ≤ b3 ∧ b3 ≤ 0xBF) ∧ (0x80 ≤ b4 ∧ b4 ≤ 0xBF) ∧
            (b = 0xF0 → 0x90 ≤ b2) ∧ (b = 0xF4 → b2 ≤ 0x8F) then
          Char.ofNat ((b - 0xF0) * 262144 + (b2 - 0x80) * 4096 + (b3 - 0x80) * 64 + (b4 - 0x80))
            :: utf8DecodeIgnoreF fuel bs4
        else utf8DecodeIgnoreF fuel (b2 :: b3 :: b4 :: bs4)
      | bsr => utf8DecodeIgnoreF fuel bsr
    else utf8DecodeIgnoreF fuel bs

/-- The lossy decode of a whole byte list. -/
def utf8DecodeIgnore (l : List Nat) : List Char := utf8DecodeIgnoreF l.length l

/-- Python `str.strip()` on the decoded text (lines 224 and 226). -/
def stripChars (cs : List Char) : List Char :=
  ((cs.dropWhile Char.isWhitespace).reverse.dropWhile Char.isWhitespace).reverse

/-- `BpeTokenizerPy.decode(ids)` (lines 211-226): collect bytes, decode strictly,
fall back to the lossy decode on failure, and strip the result. -/
def decodeIds (specialIds : List Nat) (idToToken : List (Nat × String))
    (ids : List Nat) : List Char :=
  let bl := collectBytes specialIds idToToken ids
  match utf8DecodeStrict bl with
  | some cs => stripChars cs
  | none => stripChars (utf8DecodeIgnore bl)

/-! ## Embedding fusion and placeholder search (`main`, lines 359-373) -/

/-- Lines 364-373 of `main`: walk the `L` text positions; at the placeholder
position write the `T` vision vectors, at every other position copy the text
vector. -/
def fuseEmbeddings {α : Type} (textEmb visProj : List α) (imagePos : Nat) : List α :=
  (textEmb.enum.map (fun p => if p.1 = imagePos then visProj else [p.2])).flatten

/-- Lines 359-360 of `main`: `np.where(input_ids[0] == image_token_id)[0]` and its
first element when non-empty. -/
def findImagePos (inputIds : List Nat) (imageTokenId : Nat) : Option Nat :=
  ((List.range inputIds.length).filter (fun i => inputIds.getD i 0 == imageTokenId)).head?

/-- Lines 359-373 of `main` with the generation phase abstracted: a missing
placeholder prints a warning and returns before any decoder call (lines
361-363); otherwise fusion runs and its result feeds the generation. -/
def runPipeline {α : Type} (inputIds : List Nat) (imageTokenId : Nat)
    (textEmb visProj : List α) (generate0 : List α → List Nat) : Except String (List Nat) :=
  match findImagePos inputIds imageTokenId with
  | none => Except.error "missing image placeholder"
  | some p => Except.ok (generate0 (fuseEmbeddings textEmb visProj p))

/-! ## Sampler (`top_p_sample`, lines 277-303) -/

/-- Lines 282-287 of `top_p_sample`: the repetition penalty on the logit of one
id with occurrence count `cnt`. -/
def applyRepetitionPenalty (penalty : ℚ) (cnt : Nat) (logit : ℚ) : ℚ :=
  if 0 < cnt then (if 0 < logit then logit / penalty else logit * penalty) else logit

/-- `np.argsort(-probs)` (line 296): the indices of `probs` sorted by descending
probability.  (`np.argsort` breaks ties in an unspecified internal order; any
sorting algorithm realises it, insertion sort here.) -/
def argsortDesc (probs : List ℚ) : List Nat :=
  (List.range probs.length).insertionSort (fun i j => probs.getD j 0 ≤ probs.getD i 0)

/-- The cumulative probability mass of the first `n` sorted candidates
(`np.cumsum(probs[idx])`, line 297). -/
def cumMass (probs : List ℚ) (n : Nat) : ℚ :=
  (((argsortDesc probs).take n).map (fun i => probs.getD i 0)).sum

/-- `keep_n = np.searchsorted(cumsum, top_p) + 1` (line 298): `searchsorted` with
`side='left'` on the non-decreasing cumulative sums is the number of prefix sums
strictly below `top_p`. -/
def keepCount (probs : List ℚ) (topP : ℚ) : Nat :=
  ((List.range probs.length).filter (fun k => decide (cumMass probs (k + 1) < topP))).length + 1

/-- `keep_idx = idx[:keep_n]` (line 299): the kept candidate ids. -/
def keptIds (probs : List ℚ) (topP : ℚ) : List Nat :=
  (argsortDesc probs).take (keepCount probs topP)

/-! ## Decode loop (`main`, lines 405-443) -/

/-- The generation loop of `main` (lines 405-416) with the sampler and the
engine abstracted into `sample`, a function of the ids generated so far: each
step appends one sampled id and the loop leaves early when it equals the
end-of-sequence id. -/
def genLoop (sample : List Nat → Nat) (eosId : Nat) : Nat → List Nat → List Nat
  | 0, gen => gen
  | fuel + 1, gen =>
    let nid := sample gen
    if nid = eosId then gen ++ [nid] else genLoop sample eosId fuel (gen ++ [nid])

/-- `generated` after the loop of lines 405-433, starting empty and running for
at most `max_new_tokens` steps. -/
def generatedIds (sample : List Nat → Nat) (eosId maxNewTokens : Nat) : List Nat :=
  genLoop sample eosId maxNewTokens []

/-- Lines 438-441 of `main`: cut the generated ids at (and excluding) the first
end-of-sequence occurrence, when present. -/
def cutAtEos (eosId : Nat) (generated : List Nat) : List Nat :=
  if generated.contains eosId then generated.take (generated.indexOf eosId) else generated

/-- Lines 438-442 of `main`: the final output text. -/
def outputText (specialIds : List Nat) (idToToken : List (Nat × String))
    (sample : List Nat → Nat) (eosId maxNewTokens : Nat) : List Char :=
  decodeIds specialIds idToToken (cutAtEos eosId (generatedIds sample eosId maxNewTokens))

set_option maxRecDepth 100000

/-! ## C2: the byte-unicode codec is a total bijection on bytes -/

/-- One exhaustive computation: decoding after encoding restores every byte `0..255`. -/
lemma codec_roundtrip_check :
    ((List.range 256).all fun b => (byteEncoder b).bind byteDecoder == some b) = true := by
  decide

lemma codec_roundtrip (b : Nat) (hb : b < 256) :
    (byteEncoder b).bind byteDecoder = some b := by
  have h := List.all_eq_true.mp codec_roundtrip_check b (List.mem_range.mpr hb)
  exact eq_of_beq h

/-- C2: the byte-to-unicode codec is a total bijection over the 256 byte values:
the encoder assigns every byte `0..255` a codepoint, distinct bytes receive
distinct codepoints, decoding after encoding restores every byte, and on every
codepoint of the encoder's image encoding after decoding restores the codepoint. -/
theorem byte_unicode_codec_bijection :
    (∀ b : Nat, b < 256 → (byteEncoder b).isSome) ∧
    (∀ b1 b2 : Nat, b1 < 256 → b2 < 256 → byteEncoder b1 = byteEncoder b2 → b1 = b2) ∧
    (∀ b : Nat, b < 256 → (byteEncoder b).bind byteDecoder = some b) ∧
    (∀ b c : Nat, b < 256 → byteEncoder b = some c →
      (byteDecoder c).bind byteEncoder = some c) := by
  refine ⟨?_, ?_, codec_roundtrip, ?_⟩
  · intro b hb
    have h := codec_roundtrip b hb
    cases henc : byteEncoder b with
    | none => rw [henc] at h; simp at h
    | some c => simp
  · intro b1 b2 h1 h2 heq
    have e1 := codec_roundtrip b1 h1
    have e2 := codec_roundtrip b2 h2
    rw [heq] at e1
    exact Option.some.inj (e1.symm.trans e2)
  · intro b c hb henc
    have h := codec_roundtrip b hb
    rw [henc] at h
    have hdec : byteDecoder c = some b := by simpa using h
    rw [hdec]
    simpa using henc

/-- Witness for the codec bijection at the concrete bytes `65` and `0`
(the byte `0` is one of the remapped bytes, sent to codepoint `256`). -/
theorem byte_unicode_codec_bijection_witness :
    (byteEncoder 65).isSome ∧ (byteEncoder 0).bind byteDecoder = some 0 ∧
    (byteDecoder 256).bind byteEncoder = some 256 :=
  ⟨byte_unicode_codec_bijection.1 65 (by norm_num),
   byte_unicode_codec_bijection.2.2.1 0 (by norm_num),
   byte_unicode_codec_bijection.2.2.2 0 256 (by norm_num) (by decide)⟩

/-! ## C7: repetition penalty -/

/-- C7: for an id with occurrence count above zero the sampler divides a positive
logit by the repetition penalty and multiplies a non-positive logit by it, and
for a positive logit the post-penalty value strictly decreases as the penalty
increases above `1`. -/
theorem repetition_penalty_asymmetric_monotone :
    (∀ (penalty logit : ℚ) (cnt : Nat), 0 < cnt →
      applyRepetitionPenalty penalty cnt logit =
        if 0 < logit then logit / penalty else logit * penalty) ∧
    (∀ (p1 p2 logit : ℚ) (cnt : Nat), 0 < cnt → 0 < logit → 1 ≤ p1 → p1 < p2 →
      applyRepetitionPenalty p2 cnt logit < applyRepetitionPenalty p1 cnt logit) := by
  constructor
  · intro penalty logit cnt hc
    simp [applyRepetitionPenalty, hc]
  · intro p1 p2 logit cnt hc hl hp1 hp12
    have hq1 : (0 : ℚ) < p1 := by linarith
    have hq2 : (0 : ℚ) < p2 := by linarith
    simp only [applyRepetitionPenalty, if_pos hc, if_pos hl]
    rw [div_lt_div_iff₀ hq2 hq1]
    exact mul_lt_mul_of_pos_left hp12 hl

/-- Witness for the repetition penalty theorem: one repeated id with logit `1`,
penalties `1` and `2`. -/
theorem repetition_penalty_witness :
    applyRepetitionPenalty 2 1 1 = (if (0 : ℚ) < 1 then (1 : ℚ) / 2 else 1 * 2) ∧
    applyRepetitionPenalty 2 1 1 < applyRepetitionPenalty 1 1 1 :=
  ⟨repetition_penalty_asymmetric_monotone.1 2 1 1 (by norm_num),
   repetition_penalty_asymmetric_monotone.2 1 2 1 1 (by norm_num) (by norm_num)
     (by norm_num) (by norm_num)⟩

/-! ## C9: missing image placeholder -/

/-- C9: when the tokenized prompt does not contain the image-placeholder id, the
placeholder search finds nothing and the pipeline reports the missing
placeholder as a value, with no generation produced — whatever the generator
would have computed. -/
theorem missing_placeholder_reported {α : Type} (inputIds : List Nat) (imageTokenId : Nat)
    (textEmb visProj : List α) (generate0 : List α → List Nat)
    (h : imageTokenId ∉ inputIds) :
    findImagePos inputIds imageTokenId = none ∧
    runPipeline inputIds imageTokenId textEmb visProj generate0 =
      Except.error "missing image placeholder" := by
  have hf : findImagePos inputIds imageTokenId = none := by
    unfold findImagePos
    have : (List.range inputIds.length).filter
        (fun i => inputIds.getD i 0 == imageTokenId) = [] := by
      apply List.filter_eq_nil_iff.mpr
      intro i hi
      have hlt : i < inputIds.length := List.mem_range.mp hi
      have hmem : inputIds.getD i 0 ∈ inputIds := by
        rw [List.getD_eq_getElem inputIds 0 hlt]
        exact List.getElem_mem hlt
      simp only [beq_iff_eq]
      intro hc
      exact h (hc ▸ hmem)
    rw [this]
    rfl
  refine ⟨hf, ?_⟩
  unfold runPipeline
  rw [hf]

/-- Witness for the missing-placeholder theorem: prompt ids `[1, 2, 3]` and
placeholder id `9`. -/
theorem missing_placeholder_witness :
    findImagePos [1, 2, 3] 9 = none ∧
    runPipeline (α := Nat) [1, 2, 3] 9 [] [] (fun _ => []) =
      Except.error "missing image placeholder" :=
  missing_placeholder_reported [1, 2, 3] 9 [] [] (fun _ => []) (by decide)

/-! ## C5: unknown-token fallback -/

/-- C5 counterexample: with an empty vocabulary — so the merged symbol has no
vocabulary id and no unknown-token id is configured — the encoder does not fail:
it silently produces the id `0` for the unmapped symbol. -/
theorem unknown_token_no_error_counterexample :
    encodePiece [] (fun _ => none) "a" = [0] := by
  decide

/-- C5 (amended): an unmapped BPE symbol receives the `<unk>` vocabulary id when
one is present, and the hard-coded id `0` otherwise; segment encoding is total
and never raises. -/
theorem unknown_token_fallback (vocab : List (String × Nat))
    (ranks : String × String → Option Nat) (piece : String) :
    (∀ tok tid, vocab.lookup tok = some tid → vocabLookup vocab tok = tid) ∧
    (∀ tok u, vocab.lookup tok = none → vocab.lookup "<unk>" = some u →
      vocabLookup vocab tok = u) ∧
    (∀ tok, vocab.lookup tok = none → vocab.lookup "<unk>" = none →
      vocabLookup vocab tok = 0) ∧
    encodePiece vocab ranks piece =
      (bpe ranks (byteEncodePiece piece)).map (vocabLookup vocab) := by
  refine ⟨?_, ?_, ?_, rfl⟩
  · intro tok tid htok
    simp [vocabLookup, htok]
  · intro tok u htok hunk
    simp [vocabLookup, htok, hunk]
  · intro tok htok hunk
    simp [vocabLookup, htok, hunk]

/-- Witness for the fallback theorem: a mapped symbol, an unmapped symbol with a
configured `<unk>` id, and an unmapped symbol with no `<unk>` id. -/
theorem unknown_token_fallback_witness :
    vocabLookup [("x", 7)] "x" = 7 ∧
    vocabLookup [("<unk>", 3)] "q" = 3 ∧
    vocabLookup [] "q" = 0 :=
  ⟨(unknown_token_fallback [("x", 7)] (fun _ => none) "a").1 "x" 7 (by decide),
   (unknown_token_fallback [("<unk>", 3)] (fun _ => none) "a").2.1 "q" 3 (by decide) (by decide),
   (unknown_token_fallback [] (fun _ => none) "a").2.2.1 "q" (by decide) (by decide)⟩

/-! ## C3: embedding fusion -/

lemma fuseFrom_out {α : Type} (l v : List α) (n p : Nat) (h : p < n) :
    ((List.enumFrom n l).map (fun q => if q.1 = p then v else [q.2])).flatten = l := by
  induction l generalizing n with
  | nil => rfl
  | cons a l ih =>
    rw [List.enumFrom_cons]
    have hne : n ≠ p := by omega
    simp only [List.map_cons, List.flatten_cons, if_neg hne]
    rw [ih (n + 1) (by omega)]
    rfl

lemma fuseFrom_in {α : Type} (l v : List α) (n p : Nat) (h1 : n ≤ p)
    (h2 : p < n + l.length) :
    ((List.enumFrom n l).map (fun q => if q.1 = p then v else [q.2])).flatten =
      l.take (p - n) ++ v ++ l.drop (p - n + 1) := by
  induction l generalizing n with
  | nil => simp at h2; omega
  | cons a l ih =>
    rw [List.enumFrom_cons]
    by_cases hnp : n = p
    · subst hnp
      simp only [List.map_cons, List.flatten_cons, if_pos rfl, Nat.sub_self]
      rw [fuseFrom_out l v (n + 1) n (by omega)]
      simp
    · have hn1 : n + 1 ≤ p := by omega
      have hsub : p - n = (p - (n + 1)) + 1 := by omega
      simp only [List.map_cons, List.flatten_cons, if_neg hnp]
      rw [ih (n + 1) hn1 (by simp at h2 ⊢; omega), hsub]
      simp [List.take_succ_cons, List.drop_succ_cons]

lemma fuse_eq_take_append_drop {α : Type} (textEmb visProj : List α) (p : Nat)
    (hp : p < textEmb.length) :
    fuseEmbeddings textEmb visProj p =
      textEmb.take p ++ visProj ++ textEmb.drop (p + 1) := by
  unfold fuseEmbeddings
  rw [show textEmb.enum = List.enumFrom 0 textEmb from rfl]
  simpa using fuseFrom_in textEmb visProj 0 p (Nat.zero_le p) (by omega)

/-- C3: with the placeholder at position `p` of an `L`-position text embedding
sequence and `T` vision vectors, fusion yields `L - 1 + T` positions: positions
below `p` are the original ones, positions `p..p+T-1` are the vision vectors in
order, and every original position `k > p` moves to `k - 1 + T`. -/
theorem embedding_fusion_spec {α : Type} (textEmb visProj : List α) (p : Nat)
    (hp : p < textEmb.length) :
    (fuseEmbeddings textEmb visProj p).length = textEmb.length - 1 + visProj.length ∧
    (∀ i, i < p → (fuseEmbeddings textEmb visProj p)[i]? = textEmb[i]?) ∧
    (∀ j, j < visProj.length →
      (fuseEmbeddings textEmb visProj p)[p + j]? = visProj[j]?) ∧
    (∀ k, p < k → k < textEmb.length →
      (fuseEmbeddings textEmb visProj p)[k - 1 + visProj.length]? = textEmb[k]?) := by
  rw [fuse_eq_take_append_drop textEmb visProj p hp]
  have hta : (textEmb.take p).length = p := by
    rw [List.length_take]; omega
  refine ⟨?_, ?_, ?_, ?_⟩
  · simp only [List.length_append, List.length_take, List.length_drop]
    omega
  · intro i hi
    rw [List.append_assoc, List.getElem?_append, if_pos (by omega)]
    rw [List.getElem?_take, if_pos (by omega)]
  · intro j hj
    rw [List.append_assoc, List.getElem?_append_right (by omega), hta]
    rw [List.getElem?_append, Nat.add_sub_cancel_left, if_pos hj]
  · intro k hk1 hk2
    rw [List.append_assoc, List.getElem?_append_right (by omega), hta]
    rw [List.getElem?_append_right (by omega), List.getElem?_drop]
    congr 1
    omega

/-- Witness for the fusion theorem at the specification's concrete shapes:
`L = 5` text vectors, placeholder position `2`, `T = 3` vision vectors. -/
theorem embedding_fusion_witness :
    (fuseEmbeddings [10, 11, 12, 13, 14] [20, 21, 22] 2).length = 7 ∧
    (fuseEmbeddings [10, 11, 12, 13, 14] [20, 21, 22] 2)[1]? = some 11 ∧
    (fuseEmbeddings [10, 11, 12, 13, 14] [20, 21, 22] 2)[4]? = some 22 ∧
    (fuseEmbeddings [10, 11, 12, 13, 14] [20, 21, 22] 2)[6]? = some 14 := by
  have h := embedding_fusion_spec [10, 11, 12, 13, 14] [20, 21, 22] 2 (by norm_num)
  exact ⟨h.1.trans (by norm_num), (h.2.1 1 (by norm_num)).trans (by rfl),
    (h.2.2.1 2 (by norm_num)).trans (by rfl), (h.2.2.2 4 (by norm_num) (by norm_num)).trans (by rfl)⟩

/-! ## C8: decode loop halting and end-of-sequence cutting -/

lemma genLoop_inv (sample : List Nat → Nat) (eosId : Nat) :
    ∀ (fuel : Nat) (gen : List Nat), eosId ∉ gen →
      (genLoop sample eosId fuel gen).length ≤ gen.length + fuel ∧
      (∀ i, (genLoop sample eosId fuel gen)[i]? = some eosId →
        i = (genLoop sample eosId fuel gen).length - 1) := by
  intro fuel
  induction fuel with
  | zero =>
    intro gen hg
    refine ⟨by simp [genLoop], ?_⟩
    intro i hi
    exact absurd (List.mem_iff_getElem?.mpr ⟨i, hi⟩) hg
  | succ fuel ih =>
    intro gen hg
    by_cases hs : sample gen = eosId
    · have hr : genLoop sample eosId (fuel + 1) gen = gen ++ [eosId] := by
        simp [genLoop, hs]
      rw [hr]
      refine ⟨by simp only [List.length_append, List.length_cons, List.length_nil]; omega, ?_⟩
      intro i hi
      rw [List.getElem?_append] at hi
      split at hi
      · exact absurd (List.mem_iff_getElem?.mpr ⟨i, hi⟩) hg
      · rename_i hlen
        simp only [List.length_append, List.length_cons, List.length_nil]
        have hi' : i - gen.length < 1 := by
          by_contra hge
          rw [List.getElem?_eq_none (by simp; omega)] at hi
          exact Option.noConfusion hi
        omega
    · have hr : genLoop sample eosId (fuel + 1) gen =
          genLoop sample eosId fuel (gen ++ [sample gen]) := by
        simp [genLoop, hs]
      rw [hr]
      have hg' : eosId ∉ gen ++ [sample gen] := by
        simp only [List.mem_append, List.mem_singleton]
        rintro (h | h)
        · exact hg h
        · exact hs h.symm
      have := ih (gen ++ [sample gen]) hg'
      refine ⟨?_, this.2⟩
      calc (genLoop sample eosId fuel (gen ++ [sample gen])).length
          ≤ (gen ++ [sample gen]).length + fuel := this.1
        _ = gen.length + (fuel + 1) := by simp; omega

lemma cutAtEos_eq_takeWhile (eosId : Nat) (l : List Nat) (h : eosId ∈ l) :
    cutAtEos eosId l = l.takeWhile (fun x => x != eosId) := by
  induction l with
  | nil => simp at h
  | cons b l ih =>
    by_cases hb : b = eosId
    · subst hb
      unfold cutAtEos
      rw [if_pos (by simp), List.indexOf_cons_self]
      simp [List.takeWhile_cons]
    · have hmem : eosId ∈ l := by
        rcases List.mem_cons.mp h with h' | h'
        · exact absurd h'.symm hb
        · exact h'
      have ihl := ih hmem
      unfold cutAtEos at ihl ⊢
      rw [if_pos (by simpa [List.elem_eq_mem] using hmem)] at ihl
      rw [if_pos (by simpa [List.elem_eq_mem] using h), List.indexOf_cons_ne l hb,
        List.take_succ_cons, List.takeWhile_cons,
        show (b != eosId) = true by simpa using hb, if_pos rfl, ihl]

/-- C8: the decode loop samples at most `max_new_tokens` ids and halts on the
end-of-sequence id, so the end id can only be the last generated element and a
first-step end id gives the one-element sequence `[eos]`; the output text is the
detokenization of the generated ids cut at (and excluding) the first
end-of-sequence occurrence when present, and of the full sequence otherwise. -/
theorem decode_loop_stop (sample : List Nat → Nat) (eosId maxNewTokens : Nat)
    (specialIds : List Nat) (idToToken : List (Nat × String)) :
    (generatedIds sample eosId maxNewTokens).length ≤ maxNewTokens ∧
    (∀ i, (generatedIds sample eosId maxNewTokens)[i]? = some eosId →
      i = (generatedIds sample eosId maxNewTokens).length - 1) ∧
    (1 ≤ maxNewTokens → sample [] = eosId →
      generatedIds sample eosId maxNewTokens = [eosId]) ∧
    (eosId ∈ generatedIds sample eosId maxNewTokens →
      cutAtEos eosId (generatedIds sample eosId maxNewTokens) =
        (generatedIds sample eosId maxNewTokens).takeWhile (fun x => x != eosId)) ∧
    (eosId ∉ generatedIds sample eosId maxNewTokens →
      cutAtEos eosId (generatedIds sample eosId maxNewTokens) =
        generatedIds sample eosId maxNewTokens) ∧
    outputText specialIds idToToken sample eosId maxNewTokens =
      decodeIds specialIds idToToken
        (cutAtEos eosId (generatedIds sample eosId maxNewTokens)) := by
  have hinv := genLoop_inv sample eosId maxNewTokens [] (by simp)
  refine ⟨by simpa using hinv.1, hinv.2, ?_, cutAtEos_eq_takeWhile eosId _, ?_, rfl⟩
  · intro hmax hs
    cases maxNewTokens with
    | zero => omega
    | succ m => simp [generatedIds, genLoop, hs]
  · intro hnot
    unfold cutAtEos
    rw [if_neg (by simpa using hnot)]

/-- Witness for the decode-loop theorem: a sampler that immediately emits the
end-of-sequence id `5` under a budget of `3` tokens. -/
theorem decode_loop_stop_witness :
    generatedIds (fun _ => 5) 5 3 = [5] ∧
    (generatedIds (fun _ => 5) 5 3).length ≤ 3 :=
  ⟨(decode_loop_stop (fun _ => 5) 5 3 [] []).2.2.1 (by norm_num) rfl,
   (decode_loop_stop (fun _ => 5) 5 3 [] []).1⟩

/-! ## C1: greedy lowest-rank BPE merge -/

/-- C1: the bigram selection of `_bpe` picks, among the adjacent pairs present in
the rank table, the pair of lowest rank (it coincides with the specification's
filter-then-minimise reading for every rank table that is injective and keeps
its ranks below the `10^9` sentinel, as the tables loaded from `merges.txt` are),
the merge loop stops as soon as no adjacent pair is ranked, and on the two-rule
table `(l,o) -> 0`, `(lo,w) -> 1` the piece `"low"` merges to the single symbol
`"low"`, which maps to exactly one token id. -/
theorem bpe_greedy_lowest_rank (ranks : String × String → Option Nat)
    (hinj : ∀ p q r, ranks p = some r → ranks q = some r → p = q)
    (hbound : ∀ p r, ranks p = some r → r < 10 ^ 9) :
    (∀ pairs, selectBigram ranks pairs = selectBigramSpec ranks pairs) ∧
    (∀ pairs p, selectBigram ranks pairs = some p →
      p ∈ pairs ∧ (ranks p).isSome ∧
        ∀ q ∈ pairs, ∀ r', ranks q = some r' → (ranks p).getD 0 ≤ r') ∧
    (∀ word fuel, selectBigram ranks (getPairs word) = none →
      bpeLoop ranks fuel word = word) ∧
    bpe (fun p => ([(("l", "o"), 0), (("lo", "w"), 1)].lookup p)) "low" = ["low"] ∧
    encodePiece [("low", 42)] (fun p => ([(("l", "o"), 0), (("lo", "w"), 1)].lookup p)) "low"
      = [42] := by
  have hsel : ∀ pairs, selectBigram ranks pairs = selectBigramSpec ranks pairs := by
    intro pairs
    unfold selectBigram selectBigramSpec
    cases hm : pairs.argmin (fun p => (ranks p).getD (10 ^ 9)) with
    | none =>
      rw [List.argmin_eq_none.mp hm]
      rfl
    | some m =>
      obtain ⟨hmem, hmin, hidx⟩ := List.argmin_eq_some_iff.mp hm
      cases hrm : ranks m with
      | none =>
        have hflt : pairs.filter (fun p => (ranks p).isSome) = [] := by
          apply List.filter_eq_nil_iff.mpr
          intro a ha hsome
          obtain ⟨ra, hra⟩ := Option.isSome_iff_exists.mp (by simpa using hsome)
          have h1 := hmin a ha
          rw [hrm, hra] at h1
          simp only [Option.getD_some, Option.getD_none] at h1
          exact absurd (hbound a ra hra) (by omega)
        rw [hflt]
        simp [hrm]
      | some rm =>
        have hspec : (pairs.filter (fun p => (ranks p).isSome)).argmin
            (fun p => (ranks p).getD 0) = some m := by
          apply List.argmin_eq_some_iff.mpr
          refine ⟨List.mem_filter.mpr ⟨hmem, by simp [hrm]⟩, ?_, ?_⟩
          · intro a ha
            obtain ⟨haP, haS⟩ := List.mem_filter.mp ha
            obtain ⟨ra, hra⟩ := Option.isSome_iff_exists.mp (by simpa using haS)
            have h1 := hmin a haP
            rw [hrm, hra] at h1 ⊢
            simpa using h1
          · intro a ha hle
            obtain ⟨haP, haS⟩ := List.mem_filter.mp ha
            obtain ⟨ra, hra⟩ := Option.isSome_iff_exists.mp (by simpa using haS)
            have h1 := hmin a haP
            rw [hrm, hra] at h1 hle
            simp only [Option.getD_some] at h1 hle
            have : a = m := hinj a m rm (by rw [hra]; congr 1; omega) hrm
            rw [this]
        rw [hspec]
        simp [hrm]
  refine ⟨hsel, ?_, ?_, by decide, by decide⟩
  · intro pairs p hp
    unfold selectBigram at hp
    cases hm : pairs.argmin (fun q => (ranks q).getD (10 ^ 9)) with
    | none => rw [hm] at hp; exact Option.noConfusion hp
    | some m =>
      rw [hm] at hp
      obtain ⟨hmem, hmin, _⟩ := List.argmin_eq_some_iff.mp hm
      have hp2 : (if (ranks m).isSome = true then some m else none) = some p := hp
      by_cases hs : (ranks m).isSome
      · rw [if_pos hs] at hp2
        obtain rfl : m = p := Option.some.inj hp2
        obtain ⟨rm, hrm⟩ := Option.isSome_iff_exists.mp hs
        refine ⟨hmem, hs, ?_⟩
        intro q hq r' hr'
        have h1 := hmin q hq
        rw [hrm, hr'] at h1
        rw [hrm]
        simpa using h1
      · rw [if_neg hs] at hp2
        exact Option.noConfusion hp2
  · intro word fuel h
    cases fuel with
    | zero => rfl
    | succ fuel => simp [bpeLoop, h]

/-- Witness for the BPE theorem at the two-rule example table: the selection
refinement evaluated on the pairs of `["l", "o", "w"]`, and the stop condition
on the unmergeable word `["x"]`. -/
theorem bpe_greedy_lowest_rank_witness :
    selectBigram (fun p => ([(("l", "o"), 0), (("lo", "w"), 1)].lookup p))
        [("l", "o"), ("o", "w")] =
      selectBigramSpec (fun p => ([(("l", "o"), 0), (("lo", "w"), 1)].lookup p))
        [("l", "o"), ("o", "w")] ∧
    bpeLoop (fun p => ([(("l", "o"), 0), (("lo", "w"), 1)].lookup p)) 5 ["x"] = ["x"] := by
  have hcases : ∀ x r, (fun p => ([(("l", "o"), 0), (("lo", "w"), 1)].lookup p)) x = some r →
      (x = ("l", "o") ∧ r = 0) ∨ (x = ("lo", "w") ∧ r = 1) := by
    intro x r hx
    simp only [List.lookup_cons] at hx
    by_cases h1 : x = ("l", "o")
    · subst h1
      rw [show ((("l", "o") : String × String) == ("l", "o")) = true from by decide] at hx
      simp at hx
      exact Or.inl ⟨rfl, hx.symm⟩
    · by_cases h2 : x = ("lo", "w")
      · subst h2
        rw [show ((("lo", "w") : String × String) == ("l", "o")) = false from by decide,
          show ((("lo", "w") : String × String) == ("lo", "w")) = true from by decide] at hx
        simp at hx
        exact Or.inr ⟨rfl, hx.symm⟩
      · rw [show (x == (("l", "o") : String × String)) = false from by simpa using h1,
          show (x == (("lo", "w") : String × String)) = false from by simpa using h2] at hx
        simp at hx
  have hinj : ∀ p q r, (fun p => ([(("l", "o"), 0), (("lo", "w"), 1)].lookup p)) p = some r →
      (fun p => ([(("l", "o"), 0), (("lo", "w"), 1)].lookup p)) q = some r → p = q := by
    intro p q r hp hq
    rcases hcases p r hp with ⟨hp1, hr⟩ | ⟨hp1, hr⟩ <;>
      rcases hcases q r hq with ⟨hq1, hr'⟩ | ⟨hq1, hr'⟩ <;> subst hp1 <;> subst hq1 <;>
        first
        | rfl
        | omega
  have hbound : ∀ p r, (fun p => ([(("l", "o"), 0), (("lo", "w"), 1)].lookup p)) p = some r →
      r < 10 ^ 9 := by
    intro p r hp
    rcases hcases p r hp with ⟨_, hr⟩ | ⟨_, hr⟩ <;> omega
  have h := bpe_greedy_lowest_rank _ hinj hbound
  exact ⟨h.1 [("l", "o"), ("o", "w")], h.2.2.1 ["x"] 5 (by decide)⟩

/-! ## C4: special-token splitting -/

lemma head?_filter_range' (p : Nat → Bool) (j : Nat) :
    ∀ (n s : Nat), ((List.range' s n).filter p).head? = some j →
      s ≤ j ∧ j < s + n ∧ p j = true ∧ ∀ k, s ≤ k → k < j → p k = false := by
  intro n
  induction n with
  | zero => intro s h; simp at h
  | succ n ih =>
    intro s h
    rw [List.range'_succ] at h
    by_cases hp : p s = true
    · rw [List.filter_cons_of_pos hp] at h
      simp only [List.head?_cons, Option.some.injEq] at h
      subst h
      exact ⟨Nat.le_refl _, by omega, hp, fun k hk1 hk2 => absurd hk1 (by omega)⟩
    · rw [List.filter_cons_of_neg hp] at h
      obtain ⟨h1, h2, h3, h4⟩ := ih (s + 1) h
      refine ⟨by omega, by omega, h3, ?_⟩
      intro k hk1 hk2
      by_cases hks : k = s
      · subst hks
        simpa using hp
      · exact h4 k (by omega) hk2

lemma strFind_leftmost (text tok : List Char) (start j : Nat)
    (h : strFind text tok start = some j) :
    start ≤ j ∧ j ≤ text.length ∧ (text.drop j).take tok.length = tok ∧
      ∀ k, start ≤ k → k < j → (text.drop k).take tok.length ≠ tok := by
  unfold strFind at h
  rw [List.range_eq_range'] at h
  obtain ⟨_, h2, h3, h4⟩ := head?_filter_range' _ j _ 0 h
  rw [Bool.and_eq_true, decide_eq_true_eq, beq_iff_eq] at h3
  refine ⟨h3.1, by omega, h3.2, ?_⟩
  intro k hk1 hk2
  have := h4 k (Nat.zero_le k) hk2
  rw [Bool.and_eq_false_iff] at this
  rcases this with hdec | hbeq
  · exact absurd hk1 (by simpa using hdec)
  · simpa using hbeq

lemma strFind_none_no_occurrence (text tok : List Char) (start : Nat)
    (h : strFind text tok start = none) :
    ∀ k, start ≤ k → k ≤ text.length → (text.drop k).take tok.length ≠ tok := by
  unfold strFind at h
  rw [List.head?_eq_none_iff, List.filter_eq_nil_iff] at h
  intro k hk1 hk2 hc
  exact h k (List.mem_range.mpr (by omega)) (by simp [hk1, hc])

lemma nextSpecial_foldl_argAux (text : List Char) (i : Nat) :
    ∀ (specials : List (List Char × Nat)) (acc : Option (Nat × List Char × Nat)),
      specials.foldl
        (fun best s =>
          match strFind text s.1 i with
          | none => best
          | some idx =>
            match best with
            | none => some (idx, s)
            | some b => if idx < b.1 then some (idx, s) else best)
        acc =
      (specials.filterMap (fun s => (strFind text s.1 i).map (fun q => (q, s)))).foldl
        (List.argAux fun b c => (b : Nat × List Char × Nat).1 < (c : Nat × List Char × Nat).1)
        acc := by
  intro specials
  induction specials with
  | nil => intro acc; rfl
  | cons s sp ih =>
    intro acc
    rw [List.foldl_cons, List.filterMap_cons]
    cases hf : strFind text s.1 i with
    | none =>
      simp only [hf, Option.map_none']
      exact ih acc
    | some idx =>
      simp only [hf, Option.map_some', List.foldl_cons]
      rw [ih]
      congr 1
      cases acc with
      | none => rfl
      | some b => rfl

lemma nextSpecial_eq_spec (specials : List (List Char × Nat)) (text : List Char) (i : Nat) :
    nextSpecial specials text i = nextSpecialSpec specials text i :=
  nextSpecial_foldl_argAux text i specials none

/-- C4 (amended): the scan of `tokenize_to_ids` selects, at each position, the
marker occurrence with the smallest start index, breaking ties at equal start
positions in favour of the marker listed first in the special-token table (not
the longest); the selected marker's occurrence is the leftmost one of that
marker, no marker occurs strictly earlier, and the selected marker contributes
its reserved id directly, with the segment encoder applied only to the text
before the occurrence. -/
theorem special_token_splitting (specials : List (List Char × Nat))
    (enc : List Char → List Nat) (text : List Char) (i : Nat) :
    nextSpecial specials text i = nextSpecialSpec specials text i ∧
    (∀ pos tok tid, nextSpecial specials text i = some (pos, tok, tid) →
      (tok, tid) ∈ specials ∧ i ≤ pos ∧ (text.drop pos).take tok.length = tok ∧
      (∀ k, i ≤ k → k < pos → (text.drop k).take tok.length ≠ tok) ∧
      (∀ s' ∈ specials, ∀ q, strFind text s'.1 i = some q → pos ≤ q)) ∧
    (nextSpecial specials text i = none → ∀ s' ∈ specials, strFind text s'.1 i = none) ∧
    (∀ fuel pos tok tid, i < text.length →
      nextSpecial specials text i = some (pos, tok, tid) →
      tokenizeLoop specials enc text i (fuel + 1) =
        (if i < pos then enc ((text.drop i).take (pos - i)) else []) ++
          tid :: tokenizeLoop specials enc text (pos + tok.length) fuel) := by
  refine ⟨nextSpecial_eq_spec specials text i, ?_, ?_, ?_⟩
  · intro pos tok tid h
    rw [nextSpecial_eq_spec] at h
    obtain ⟨hmem, hmin, _⟩ := List.argmin_eq_some_iff.mp h
    obtain ⟨s0, hs0, hc0⟩ := List.mem_filterMap.mp hmem
    obtain ⟨q0, hq0, hinj⟩ := Option.map_eq_some'.mp hc0
    have h1 : q0 = pos := congrArg Prod.fst hinj
    have h2 : s0 = (tok, tid) := congrArg Prod.snd hinj
    rw [h2] at hq0 hs0
    rw [h1] at hq0
    obtain ⟨hle, _, hocc, hleft⟩ := strFind_leftmost text tok i pos hq0
    refine ⟨hs0, hle, hocc, hleft, ?_⟩
    intro s' hs' q hq
    have hmem' : ((q, s') : Nat × List Char × Nat) ∈
        specials.filterMap (fun s => (strFind text s.1 i).map (fun q => (q, s))) :=
      List.mem_filterMap.mpr ⟨s', hs', by rw [hq]; rfl⟩
    exact hmin (q, s') hmem'
  · intro h s' hs'
    rw [nextSpecial_eq_spec] at h
    have hnil := List.argmin_eq_none.mp h
    have := List.filterMap_eq_nil_iff.mp hnil s' hs'
    cases hq : strFind text s'.1 i with
    | none => rfl
    | some q => rw [hq] at this; exact Option.noConfusion this
  · intro fuel pos tok tid hlt h
    conv_lhs => rw [tokenizeLoop]
    rw [if_pos hlt, h]

/-- C4 counterexample: with the marker table listing `"X"` (id 1) before `"XY"`
(id 2), both occurring at position 0 of the text `"XY"`, the scan keeps the
first-listed shorter marker `"X"` and emits id 1; the claimed longest-marker
tie-break would select `"XY"` and emit only id 2. -/
theorem special_token_longest_tie_counterexample :
    nextSpecial [(['X'], 1), (['X', 'Y'], 2)] ['X', 'Y'] 0 = some (0, ['X'], 1) ∧
    tokenizeToIds [(['X'], 1), (['X', 'Y'], 2)] (fun _ => []) ['X', 'Y'] = [1] := by
  constructor
  · decide
  · decide

/-- Witness for the special-token splitting theorem on the table `[("A", 3)]` and
the text `"BA"`: the marker occurrence at position 1 is selected and id 3 is
emitted directly after the encoded `"B"` segment. -/
theorem special_token_splitting_witness :
    nextSpecial [(['A'], 3)] ['B', 'A'] 0 = nextSpecialSpec [(['A'], 3)] ['B', 'A'] 0 ∧
    tokenizeLoop [(['A'], 3)] (fun _ => [7]) ['B', 'A'] 0 2 =
      (if 0 < 1 then [7] else []) ++ 3 :: tokenizeLoop [(['A'], 3)] (fun _ => [7]) ['B', 'A'] 2 1 :=
  ⟨(special_token_splitting [(['A'], 3)] (fun _ => [7]) ['B', 'A'] 0).1,
   (special_token_splitting [(['A'], 3)] (fun _ => [7]) ['B', 'A'] 0).2.2.2 1 1 ['A'] 3
     (by norm_num) (by decide)⟩

/-! ## C10: detokenization is total and skips silently -/

lemma collectBytes_filter_contributing (specialIds : List Nat)
    (idToToken : List (Nat × String)) :
    ∀ ids, collectBytes specialIds idToToken ids =
      collectBytes specialIds idToToken
        (ids.filter (fun tid => ! specialIds.contains tid && (idToToken.lookup tid).isSome)) := by
  intro ids
  induction ids with
  | nil => rfl
  | cons tid ids ih =>
    unfold collectBytes at ih ⊢
    rw [List.map_cons, List.flatten_cons, List.filter_cons]
    by_cases hsp : specialIds.contains tid = true
    · have hnil : idBytes specialIds idToToken tid = [] := by
        unfold idBytes
        rw [if_pos hsp]
      have hpred : (! specialIds.contains tid && (idToToken.lookup tid).isSome) = false := by
        rw [hsp]
        rfl
      rw [hnil, hpred]
      simpa using ih
    · cases hlk : idToToken.lookup tid with
      | none =>
        have hnil : idBytes specialIds idToToken tid = [] := by
          unfold idBytes
          rw [if_neg hsp, hlk]
        have hpred : (! specialIds.contains tid && (none : Option String).isSome) = false := by
          simp
        rw [hnil, hpred]
        simpa using ih
      | some tok =>
        have hpred : (! specialIds.contains tid && (some tok).isSome) = true := by
          simpa using hsp
        rw [hpred, if_pos rfl, List.map_cons, List.flatten_cons, ih]

/-- C10: detokenization is total by construction and silently skips everything
it cannot resolve: ids in the special table and ids missing from the vocabulary
contribute no bytes (dropping them leaves the output unchanged), token
characters without a byte-decoder entry are skipped, a byte list that strict
UTF-8 decoding rejects is decoded by the lossy fallback, and the decoded text is
stripped of leading and trailing whitespace. -/
theorem detokenize_total_skips (specialIds : List Nat) (idToToken : List (Nat × String))
    (ids : List Nat) :
    collectBytes specialIds idToToken ids =
      collectBytes specialIds idToToken
        (ids.filter (fun tid => ! specialIds.contains tid && (idToToken.lookup tid).isSome)) ∧
    decodeIds specialIds idToToken ids =
      decodeIds specialIds idToToken
        (ids.filter (fun tid => ! specialIds.contains tid && (idToToken.lookup tid).isSome)) ∧
    decodeIds [7] [(7, "A")] [7] = [] ∧
    decodeIds [] [(1, String.mk [Char.ofNat 65, Char.ofNat 4096, Char.ofNat 66])] [1]
      = ['A', 'B'] ∧
    (utf8DecodeStrict [65, 255, 66] = none ∧
      decodeIds [] [(1, String.mk [Char.ofNat 65, Char.ofNat 255, Char.ofNat 66])] [1]
        = ['A', 'B']) ∧
    decodeIds [] [(1, " A ")] [1] = ['A'] := by
  refine ⟨collectBytes_filter_contributing specialIds idToToken ids, ?_, ?_, ?_, ⟨?_, ?_⟩, ?_⟩
  · unfold decodeIds
    rw [← collectBytes_filter_contributing specialIds idToToken ids]
  · decide
  · decide
  · decide
  · decide
  · decide

/-! ## C6: nucleus (top-p) truncation -/

lemma argsortDesc_perm (probs : List ℚ) :
    (argsortDesc probs).Perm (List.range probs.length) :=
  List.perm_insertionSort _ _

lemma argsortDesc_length (probs : List ℚ) :
    (argsortDesc probs).length = probs.length := by
  rw [(argsortDesc_perm probs).length_eq, List.length_range]

lemma argsortDesc_sorted (probs : List ℚ) :
    List.Pairwise (fun i j => probs.getD j 0 ≤ probs.getD i 0) (argsortDesc probs) := by
  haveI : IsTotal Nat (fun i j => probs.getD j 0 ≤ probs.getD i 0) :=
    ⟨fun a b => le_total _ _⟩
  haveI : IsTrans Nat (fun i j => probs.getD j 0 ≤ probs.getD i 0) :=
    ⟨fun a b c hab hbc => le_trans hbc hab⟩
  exact List.sorted_insertionSort _ _

lemma mem_argsortDesc_lt (probs : List ℚ) {i : Nat} (h : i ∈ argsortDesc probs) :
    i < probs.length := by
  have := (argsortDesc_perm probs).mem_iff.mp h
  simpa using this

lemma getD_pos_of_mem_argsortDesc (probs : List ℚ) (hpos : ∀ p ∈ probs, 0 < p) {i : Nat}
    (h : i ∈ argsortDesc probs) : 0 < probs.getD i 0 := by
  have hlt := mem_argsortDesc_lt probs h
  rw [List.getD_eq_getElem probs 0 hlt]
  exact hpos _ (List.getElem_mem hlt)

lemma cumMass_mono (probs : List ℚ) (hpos : ∀ p ∈ probs, 0 < p) {m m' : Nat}
    (h : m ≤ m') : cumMass probs m ≤ cumMass probs m' := by
  unfold cumMass
  obtain ⟨k, rfl⟩ := Nat.exists_eq_add_of_le h
  rw [List.take_add, List.map_append, List.sum_append]
  have hrest : 0 ≤ ((((argsortDesc probs).drop m).take k).map (fun i => probs.getD i 0)).sum := by
    apply List.sum_nonneg
    intro x hx
    obtain ⟨i, hi, rfl⟩ := List.mem_map.mp hx
    have hmem : i ∈ argsortDesc probs := List.mem_of_mem_drop (List.mem_of_mem_take hi)
    exact le_of_lt (getD_pos_of_mem_argsortDesc probs hpos hmem)
  linarith

lemma cumMass_zero (probs : List ℚ) : cumMass probs 0 = 0 := by
  unfold cumMass
  simp

lemma cumMass_total (probs : List ℚ) : cumMass probs probs.length = probs.sum := by
  unfold cumMass
  rw [List.take_of_length_le (le_of_eq (argsortDesc_length probs))]
  have hperm : ((argsortDesc probs).map (fun i => probs.getD i 0)).Perm
      ((List.range probs.length).map (fun i => probs.getD i 0)) :=
    (argsortDesc_perm probs).map _
  rw [hperm.sum_eq]
  congr 1
  apply List.ext_getElem
  · simp
  · intro n h1 h2
    simp only [List.getElem_map, List.getElem_range]
    exact List.getD_eq_getElem probs 0 h2

lemma cumMass_lt_total (probs : List ℚ) (hpos : ∀ p ∈ probs, 0 < p) {m : Nat}
    (hm : m < probs.length) : cumMass probs m < probs.sum := by
  have h1 : cumMass probs probs.length =
      cumMass probs m + (((argsortDesc probs).drop m).map (fun i => probs.getD i 0)).sum := by
    have hmap : (argsortDesc probs).map (fun i => probs.getD i 0) =
        ((argsortDesc probs).take m).map (fun i => probs.getD i 0) ++
          ((argsortDesc probs).drop m).map (fun i => probs.getD i 0) := by
      rw [← List.map_append, List.take_append_drop]
    have h2 : cumMass probs probs.length =
        ((argsortDesc probs).map (fun i => probs.getD i 0)).sum := by
      unfold cumMass
      rw [List.take_of_length_le (le_of_eq (argsortDesc_length probs))]
    rw [h2, hmap, List.sum_append]
    rfl
  have hne : ((argsortDesc probs).drop m).map (fun i => probs.getD i 0) ≠ [] := by
    intro hc
    have := congrArg List.length hc
    simp only [List.length_map, List.length_drop, argsortDesc_length, List.length_nil] at this
    omega
  have hposr : 0 < (((argsortDesc probs).drop m).map (fun i => probs.getD i 0)).sum := by
    apply List.sum_pos
    · intro x hx
      obtain ⟨i, hi, rfl⟩ := List.mem_map.mp hx
      exact getD_pos_of_mem_argsortDesc probs hpos (List.mem_of_mem_drop hi)
    · exact hne
  rw [← cumMass_total probs]
  linarith

lemma filter_range_downward_closed (pred : Nat → Bool) :
    ∀ n, (∀ j k, j ≤ k → k < n → pred k = true → pred j = true) →
      ∀ k, k < n → (pred k = true ↔ k < ((List.range n).filter pred).length) := by
  intro n
  induction n with
  | zero => intro _ k hk; omega
  | succ n ih =>
    intro hdc k hk
    rw [List.range_succ, List.filter_append]
    by_cases hp : pred n = true
    · have hall : ∀ a ∈ List.range n, pred a = true := by
        intro a ha
        exact hdc a n (by have := List.mem_range.mp ha; omega) (by omega) hp
      rw [List.filter_eq_self.mpr hall, List.filter_cons_of_pos hp]
      simp only [List.length_append, List.length_range, List.length_cons, List.length_nil]
      constructor
      · intro _; omega
      · intro _
        by_cases hkn : k = n
        · subst hkn; exact hp
        · exact hdc k n (by omega) (by omega) hp
    · rw [List.filter_cons_of_neg hp]
      simp only [List.filter_nil, List.append_nil]
      by_cases hkn : k = n
      · subst hkn
        constructor
        · intro hc; exact absurd hc hp
        · intro hlen
          have hle : ((List.range k).filter pred).length ≤ k := by
            calc ((List.range k).filter pred).length
                ≤ (List.range k).length := List.length_filter_le _ _
              _ = k := List.length_range k
          omega
      · exact ih (fun j k' hj hk' hp' => hdc j k' hj (by omega) hp') k (by omega)

/-- C6: the nucleus truncation keeps a non-empty set; the candidate order is a
descending-probability permutation of all ids; for `0 < top_p ≤ 1` the kept set
is the smallest prefix of the sorted candidates whose cumulative mass reaches
`top_p`; at `top_p = 1` every id is kept; and when `top_p` is positive but at
most the largest probability, exactly one id — one of maximal probability — is
kept. -/
theorem top_p_kept_set (probs : List ℚ) (topP : ℚ)
    (hpos : ∀ p ∈ probs, 0 < p) (hsum : probs.sum = 1) :
    1 ≤ keepCount probs topP ∧
    (List.Pairwise (fun i j => probs.getD j 0 ≤ probs.getD i 0) (argsortDesc probs) ∧
      (argsortDesc probs).Perm (List.range probs.length)) ∧
    (0 < topP → topP ≤ 1 →
      keepCount probs topP ≤ probs.length ∧
      (keptIds probs topP).length = keepCount probs topP ∧
      topP ≤ cumMass probs (keepCount probs topP) ∧
      (∀ m, m < keepCount probs topP → cumMass probs m < topP)) ∧
    (topP = 1 → keptIds probs topP = argsortDesc probs) ∧
    (0 < topP → topP ≤ cumMass probs 1 →
      ∃ i, keptIds probs topP = [i] ∧
        ∀ j, j < probs.length → probs.getD j 0 ≤ probs.getD i 0) := by
  have hne : probs ≠ [] := by
    intro h
    rw [h] at hsum
    simp at hsum
  have hn : 1 ≤ probs.length := List.length_pos.mpr hne
  have hdc : ∀ j k, j ≤ k → k < probs.length →
      (fun k => decide (cumMass probs (k + 1) < topP)) k = true →
      (fun k => decide (cumMass probs (k + 1) < topP)) j = true := by
    intro j k hjk _ hk
    simp only [decide_eq_true_eq] at hk ⊢
    exact lt_of_le_of_lt (cumMass_mono probs hpos (by omega)) hk
  have hiff := filter_range_downward_closed
    (fun k => decide (cumMass probs (k + 1) < topP)) probs.length hdc
  have hkc : keepCount probs topP =
      ((List.range probs.length).filter
        (fun k => decide (cumMass probs (k + 1) < topP))).length + 1 := rfl
  refine ⟨by omega, ⟨argsortDesc_sorted probs, argsortDesc_perm probs⟩, ?_, ?_, ?_⟩
  · intro htp hle1
    have hflast : (fun k => decide (cumMass probs (k + 1) < topP)) (probs.length - 1) = false := by
      simp only [decide_eq_false_iff_not, not_lt]
      have : probs.length - 1 + 1 = probs.length := by omega
      rw [this, cumMass_total, hsum]
      exact hle1
    have hfle : ((List.range probs.length).filter
        (fun k => decide (cumMass probs (k + 1) < topP))).length ≤ probs.length - 1 := by
      by_contra hc
      have := (hiff (probs.length - 1) (by omega)).mpr (by omega)
      rw [hflast] at this
      exact Bool.noConfusion this
    have hkcle : keepCount probs topP ≤ probs.length := by omega
    refine ⟨hkcle, ?_, ?_, ?_⟩
    · unfold keptIds
      rw [List.length_take, argsortDesc_length]
      omega
    · have hfp : ¬ cumMass probs
          (((List.range probs.length).filter
            (fun k => decide (cumMass probs (k + 1) < topP))).length + 1) < topP := by
        intro hc
        have := (hiff ((List.range probs.length).filter
            (fun k => decide (cumMass probs (k + 1) < topP))).length (by omega)).mp
          (by simpa using hc)
        omega
      rw [hkc]
      exact not_lt.mp hfp
    · intro m hm
      rw [hkc] at hm
      cases m with
      | zero => rw [cumMass_zero]; exact htp
      | succ k =>
        have hkF : k < ((List.range probs.length).filter
            (fun j => decide (cumMass probs (j + 1) < topP))).length := by omega
        have := (hiff k (by omega)).mpr (by omega)
        simpa using this
  · intro h1
    subst h1
    have hflarge : probs.length - 1 ≤ ((List.range probs.length).filter
        (fun k => decide (cumMass probs (k + 1) < 1))).length := by
      by_cases h2 : 2 ≤ probs.length
      · have hpred : decide (cumMass probs (probs.length - 2 + 1) < 1) = true := by
          simp only [decide_eq_true_eq]
          have hlt2 : probs.length - 2 + 1 < probs.length := by omega
          have hlt := cumMass_lt_total probs hpos hlt2
          rwa [hsum] at hlt
        have := (hiff (probs.length - 2) (by omega)).mp hpred
        omega
      · omega
    unfold keptIds
    apply List.take_of_length_le
    rw [argsortDesc_length, hkc]
    omega
  · intro htp hmax
    have hfzero : ((List.range probs.length).filter
        (fun k => decide (cumMass probs (k + 1) < topP))).length = 0 := by
      rw [List.length_eq_zero]
      apply List.filter_eq_nil_iff.mpr
      intro a _
      simp only [decide_eq_true_eq, not_lt]
      exact le_trans hmax (cumMass_mono probs hpos (by omega))
    have hkc1 : keepCount probs topP = 1 := by rw [hkc, hfzero]
    cases hs : argsortDesc probs with
    | nil =>
      have hlen := argsortDesc_length probs
      rw [hs] at hlen
      simp only [List.length_nil] at hlen
      omega
    | cons i rest =>
      refine ⟨i, ?_, ?_⟩
      · unfold keptIds
        rw [hkc1, hs]
        rfl
      · intro j hj
        have hsorted := argsortDesc_sorted probs
        rw [hs] at hsorted
        have hhead := (List.pairwise_cons.mp hsorted).1
        have hjmem : j ∈ argsortDesc probs := by
          rw [(argsortDesc_perm probs).mem_iff]
          exact List.mem_range.mpr hj
        rw [hs] at hjmem
        rcases List.mem_cons.mp hjmem with rfl | hjr
        · exact le_refl _
        · exact hhead j hjr

/-- Witness for the nucleus truncation theorem on the distribution
`[1/2, 1/6, 1/3]`: with `top_p = 3/4` the kept set holds the two heaviest ids,
with `top_p = 1` all three ids, with `top_p = 1/10` only the heaviest id. -/
theorem top_p_kept_set_witness :
    keepCount [1/2, 1/6, 1/3] (3/4 : ℚ) ≤ 3 ∧
    (keptIds [1/2, 1/6, 1/3] (3/4 : ℚ)).length = keepCount [1/2, 1/6, 1/3] (3/4 : ℚ) ∧
    keptIds [1/2, 1/6, 1/3] (1 : ℚ) = argsortDesc [1/2, 1/6, 1/3] ∧
    (∃ i, keptIds [1/2, 1/6, 1/3] (1/10 : ℚ) = [i] ∧
      ∀ j, j < ([1/2, 1/6, 1/3] : List ℚ).length →
        ([1/2, 1/6, 1/3] : List ℚ).getD j 0 ≤ ([1/2, 1/6, 1/3] : List ℚ).getD i 0) := by
  have hpos : ∀ p ∈ ([1/2, 1/6, 1/3] : List ℚ), 0 < p := by
    intro p hp
    fin_cases hp <;> norm_num
  have hsum : ([1/2, 1/6, 1/3] : List ℚ).sum = 1 := by norm_num
  have h34 := (top_p_kept_set [1/2, 1/6, 1/3] (3/4 : ℚ) hpos hsum).2.2.1
    (by norm_num) (by norm_num)
  have h1 := (top_p_kept_set [1/2, 1/6, 1/3] (1 : ℚ) hpos hsum).2.2.2.1 rfl
  have h10 := (top_p_kept_set [1/2, 1/6, 1/3] (1/10 : ℚ) hpos hsum).2.2.2.2
    (by norm_num) (by norm_num [cumMass, argsortDesc, List.insertionSort, List.orderedInsert])
  exact ⟨by simpa using h34.1, h34.2.1, h1, h10⟩

end FastVLM
